import Mathlib

/-!
Formal model of the core of the penumbra repository:

* `crypto/src/transaction/builder.rs` — the transaction builder;
* `pd/src/app.rs`, `pd/src/pending_block.rs` — the ABCI application state machine.

Group elements of `decaf377` are modelled as the free ℤ-module over formal
generators: index 0 is the value-blinding generator `H`
(`VALUE_BLINDING_GENERATOR`) and index `a + 1` is the value generator
`G_a` of asset id `a` (`asset::Id::value_generator`).  The scalar field `Fr`
(prime order `r > 2^64`) is modelled by ℤ: the equational facts proved below
use only commutative-ring reasoning, which transports along the ring map
`ℤ → Fr`, and the disequalities concern coefficients that are `u64` amounts,
strictly below `r`.  An element is represented by its coefficient list with
trailing zeroes trimmed, so that equality of group elements is decidable
equality of representations (mirroring comparison of `compress`ed encodings).
-/

namespace Penumbra

/-- Coefficient of generator `i` in a raw coefficient list. -/
def coeff (l : List ℤ) (i : ℕ) : ℤ := l.getD i 0

@[simp] theorem coeff_nil (i : ℕ) : coeff [] i = 0 := rfl

@[simp] theorem coeff_cons_zero (a : ℤ) (l : List ℤ) : coeff (a :: l) 0 = a := rfl

@[simp] theorem coeff_cons_succ (a : ℤ) (l : List ℤ) (i : ℕ) :
    coeff (a :: l) (i + 1) = coeff l i := rfl

/-- A coefficient list is trimmed when it does not end in a zero. -/
def Trimmed (l : List ℤ) : Prop := l.getLast? ≠ some 0

instance : DecidablePred Trimmed := fun l =>
  decidable_of_iff (l.getLast? ≠ some 0) Iff.rfl

theorem Trimmed.of_cons {x : ℤ} {xs : List ℤ} (h : Trimmed (x :: xs)) : Trimmed xs := by
  cases xs with
  | nil => simp [Trimmed]
  | cons y ys => rw [Trimmed, ← List.getLast?_cons_cons (a := x)]; exact h

/-- Remove trailing zeroes from a coefficient list. -/
def trim : List ℤ → List ℤ
  | [] => []
  | x :: xs =>
    match trim xs with
    | [] => if x = 0 then [] else [x]
    | y :: ys => x :: y :: ys

theorem trim_trimmed (l : List ℤ) : Trimmed (trim l) := by
  induction l with
  | nil => simp [trim, Trimmed]
  | cons x xs ih =>
    simp only [trim]
    cases h : trim xs with
    | nil =>
      by_cases hx : x = 0 <;> simp [hx, Trimmed]
    | cons y ys =>
      rw [h] at ih
      simpa [Trimmed, List.getLast?_cons_cons] using ih

theorem coeff_trim (l : List ℤ) (i : ℕ) : coeff (trim l) i = coeff l i := by
  induction l generalizing i with
  | nil => simp [trim]
  | cons x xs ih =>
    simp only [trim]
    cases h : trim xs with
    | nil =>
      have hxs : ∀ j, coeff xs j = 0 := by
        intro j
        have := ih j
        rw [h] at this
        simpa using this.symm
      by_cases hx : x = 0
      · cases i with
        | zero => simp [hx]
        | succ j => simp [hx, hxs j]
      · cases i with
        | zero => simp [hx]
        | succ j =>
          have h0 := hxs j
          simp [hx, coeff] at h0 ⊢
          exact h0.symm
    | cons y ys =>
      cases i with
      | zero => simp
      | succ j =>
        have := ih j
        rw [h] at this
        simpa using this

/-- Pointwise addition of coefficient lists. -/
def addL : List ℤ → List ℤ → List ℤ
  | [], ys => ys
  | xs, [] => xs
  | x :: xs, y :: ys => (x + y) :: addL xs ys

theorem coeff_addL (xs ys : List ℤ) (i : ℕ) :
    coeff (addL xs ys) i = coeff xs i + coeff ys i := by
  induction xs generalizing ys i with
  | nil => simp [addL]
  | cons x xs ih =>
    cases ys with
    | nil => simp [addL]
    | cons y ys =>
      cases i with
      | zero => simp [addL]
      | succ j => simp [addL, ih]

theorem coeff_map (f : ℤ → ℤ) (hf : f 0 = 0) (l : List ℤ) (i : ℕ) :
    coeff (l.map f) i = f (coeff l i) := by
  induction l generalizing i with
  | nil => simp [hf]
  | cons x xs ih =>
    cases i with
    | zero => simp
    | succ j => simp [ih]

/-- A `decaf377` group element: a trimmed formal ℤ-linear combination of
generators. -/
abbrev Elt := { l : List ℤ // Trimmed l }

/-- The group identity (`decaf377::Element::default()`). -/
def Elt.zero : Elt := ⟨[], by simp [Trimmed]⟩

/-- Group addition. -/
def Elt.add (a b : Elt) : Elt := ⟨trim (addL a.1 b.1), trim_trimmed _⟩

/-- Group negation. -/
def Elt.neg (a : Elt) : Elt := ⟨trim (a.1.map (fun x => -x)), trim_trimmed _⟩

/-- Group subtraction. -/
def Elt.sub (a b : Elt) : Elt := a.add b.neg

/-- Scalar multiplication by a (modelled) `Fr` scalar. -/
def Elt.smul (z : ℤ) (a : Elt) : Elt := ⟨trim (a.1.map (fun x => z * x)), trim_trimmed _⟩

/-- The formal generator with index `i`. -/
def Elt.gen (i : ℕ) : Elt :=
  ⟨List.replicate i 0 ++ [1], by simp [Trimmed, List.getLast?_concat]⟩

/-- Coefficient of generator `i` in a group element. -/
def Elt.c (a : Elt) (i : ℕ) : ℤ := coeff a.1 i

@[simp] theorem Elt.c_zero (i : ℕ) : Elt.zero.c i = 0 := rfl

@[simp] theorem Elt.c_add (a b : Elt) (i : ℕ) : (a.add b).c i = a.c i + b.c i := by
  simp [Elt.add, Elt.c, coeff_trim, coeff_addL]

@[simp] theorem Elt.c_neg (a : Elt) (i : ℕ) : a.neg.c i = -(a.c i) := by
  simp [Elt.neg, Elt.c, coeff_trim, coeff_map (fun x => -x) (by ring)]

@[simp] theorem Elt.c_sub (a b : Elt) (i : ℕ) : (a.sub b).c i = a.c i - b.c i := by
  simp [Elt.sub, sub_eq_add_neg]

@[simp] theorem Elt.c_smul (z : ℤ) (a : Elt) (i : ℕ) : (Elt.smul z a).c i = z * a.c i := by
  simp [Elt.smul, Elt.c, coeff_trim, coeff_map (fun x => z * x) (by ring)]

@[simp] theorem Elt.c_gen (j i : ℕ) : (Elt.gen j).c i = if i = j then 1 else 0 := by
  induction j generalizing i with
  | zero =>
    cases i with
    | zero => simp [Elt.gen, Elt.c]
    | succ k => simp [Elt.gen, Elt.c, coeff]
  | succ j ih =>
    cases i with
    | zero => simp [Elt.gen, Elt.c, List.replicate_succ]
    | succ k =>
      have : (Elt.gen (j + 1)).c (k + 1) = (Elt.gen j).c k := by
        simp [Elt.gen, Elt.c, List.replicate_succ]
      rw [this, ih]
      by_cases hk : k = j <;> simp [hk]

theorem getLast?_eq_coeff (l : List ℤ) (h : l ≠ []) :
    l.getLast? = some (coeff l (l.length - 1)) := by
  induction l with
  | nil => cases h rfl
  | cons x xs ih =>
    cases xs with
    | nil => simp [coeff]
    | cons y ys =>
      rw [List.getLast?_cons_cons, ih (by simp)]
      congr 1

theorem trimmed_ext : ∀ {l m : List ℤ}, Trimmed l → Trimmed m →
    (∀ i, coeff l i = coeff m i) → l = m
  | [], [], _, _, _ => rfl
  | [], y :: ys, _, hm, h => by
    exfalso
    have hlast := getLast?_eq_coeff (y :: ys) (by simp)
    have : coeff (y :: ys) ((y :: ys).length - 1) = 0 := by
      rw [← h ((y :: ys).length - 1)]; simp
    rw [this] at hlast
    exact hm hlast
  | x :: xs, [], hl, _, h => by
    exfalso
    have hlast := getLast?_eq_coeff (x :: xs) (by simp)
    have : coeff (x :: xs) ((x :: xs).length - 1) = 0 := by
      rw [h ((x :: xs).length - 1)]; simp
    rw [this] at hlast
    exact hl hlast
  | x :: xs, y :: ys, hl, hm, h => by
    have hx : x = y := by simpa using h 0
    have htail : xs = ys :=
      trimmed_ext hl.of_cons hm.of_cons (fun i => by simpa using h (i + 1))
    rw [hx, htail]

/-- Extensionality: trimmed representations with equal coefficients are equal
group elements. -/
theorem Elt.ext_c {a b : Elt} (h : ∀ i, a.c i = b.c i) : a = b :=
  Subtype.ext (trimmed_ext a.2 b.2 h)

/-! Transaction builder, from `crypto/src/transaction/builder.rs`. -/

/-- The fixed blinding generator `H` (`value::VALUE_BLINDING_GENERATOR`). -/
def Hgen : Elt := Elt.gen 0

/-- Modelled from the spec: `asset::Id::value_generator` derives an independent
group generator per asset id (`G_asset` in §3); the derivation itself lives in
the crypto crate outside `src/` and is modelled as the formal generator of
index `asset + 1`. -/
def value_generator (asset_id : ℕ) : Elt := Elt.gen (asset_id + 1)

/-- Modelled from the spec: the asset id of the hard-coded fee denomination
`upenumbra` (`asset::REGISTRY.parse_denom("upenumbra").unwrap().id()`, outside
`src/`); a fixed asset id. -/
def upenumbraId : ℕ := 0

/-- A value: an amount (`u64`) of a given asset id (`Value` in the crypto crate). -/
structure Value where
  amount : ℕ
  asset_id : ℕ
deriving DecidableEq

/-- Modelled from the spec: the homomorphic value commitment
`amount · G_asset + r · H` of §3 (`Value::commit` lives outside `src/`). -/
def Value.commit (v : Value) (v_blinding : ℤ) : Elt :=
  (Elt.smul (v.amount : ℤ) (value_generator v.asset_id)).add (Elt.smul v_blinding Hgen)

/-- A spend body (`spend::Body`): the value commitment plus the remaining
fields (nullifier, randomized verification key, anchor, proof), abstracted
into an opaque payload. -/
structure SpendBody where
  value_commitment : Elt
  data : ℕ
deriving DecidableEq

/-- An output body (`output::Body`): the value commitment plus the remaining
fields (note commitment, ephemeral key, encrypted note), abstracted. -/
structure OutputBody where
  value_commitment : Elt
  data : ℕ
deriving DecidableEq

/-- An output action (`Output { body, encrypted_memo, ovk_wrapped_key }`). -/
structure Output where
  body : OutputBody
  encrypted_memo : ℕ
  ovk_wrapped_key : ℕ
deriving DecidableEq

/-- A signature, modelled as the signing key together with the signed message
(the signature scheme is a cryptographic parameter). -/
abbrev Sig := ℤ × ℕ

/-- The all-zero placeholder signature `Signature::from([0; 64])`. -/
def blankSig : Sig := (0, 0)

/-- Modelled signing: `SigningKey::sign` is a cryptographic parameter,
abstracted as the pair of key and message. -/
def sign (key : ℤ) (msg : ℕ) : Sig := (key, msg)

/-- Modelled from the spec: `spend_auth_key.randomize(&spend_auth_randomizer)`
derives the randomized signing key (scheme-specific, outside `src/`). -/
def randomize (sk spend_auth_randomizer : ℤ) : ℤ := sk + spend_auth_randomizer

/-- The transaction builder state (`Builder` in `builder.rs`). -/
structure Builder where
  /-- List of spends: the randomized signing key and the spend body. -/
  spends : List (ℤ × SpendBody)
  /-- List of outputs in the transaction. -/
  outputs : List Output
  /-- Transaction fee. `none` if unset. -/
  fee : Option ℕ
  /-- Sum of blinding factors for each value commitment. -/
  synthetic_blinding_factor : ℤ
  /-- Sum of value commitments. -/
  value_commitments : Elt
  /-- Value balance. -/
  value_balance : Elt
  /-- The root of the note commitment merkle tree (abstracted). -/
  merkle_root : ℕ
  /-- Expiry height. `none` if unset. -/
  expiry_height : Option ℕ
  /-- Chain ID. `none` if unset. -/
  chain_id : Option String
deriving DecidableEq

/-- Modelled from the spec: the builder's initial state — all accumulators
empty or zero, citing the given merkle root; the constructor
(`Transaction::build_with_root`) is not under `src/` and §4.1 lists the
state carried across chained operations. -/
def initBuilder (merkle_root : ℕ) : Builder :=
  { spends := []
    outputs := []
    fee := none
    synthetic_blinding_factor := 0
    value_commitments := Elt.zero
    value_balance := Elt.zero
    merkle_root := merkle_root
    expiry_height := none
    chain_id := none }

/-- `Builder::add_spend`: the sampled blinding factor and spend-auth
randomizer (drawn from the RNG in the source) are explicit arguments. -/
def Builder.add_spend (b : Builder) (v_blinding spend_auth_randomizer spend_key : ℤ)
    (note_value : Value) (body_data : ℕ) : Builder :=
  let value_commitment := note_value.commit v_blinding
  let rsk := randomize spend_key spend_auth_randomizer
  { b with
    synthetic_blinding_factor := b.synthetic_blinding_factor + v_blinding
    value_balance :=
      b.value_balance.add (Elt.smul (note_value.amount : ℤ) (value_generator note_value.asset_id))
    value_commitments := b.value_commitments.add value_commitment
    spends := b.spends ++ [(rsk, { value_commitment := value_commitment, data := body_data })] }

/-- `Builder::add_output_producing_note` (and `add_output`, which discards the
note): the sampled blinding factor is an explicit argument; the generated
note, memo encryption and key wrapping are abstracted into payloads. -/
def Builder.add_output (b : Builder) (v_blinding : ℤ) (value_to_send : Value)
    (body_data encrypted_memo ovk_wrapped_key : ℕ) : Builder :=
  let body : OutputBody := { value_commitment := value_to_send.commit v_blinding
                             data := body_data }
  { b with
    synthetic_blinding_factor := b.synthetic_blinding_factor - v_blinding
    value_balance :=
      b.value_balance.sub
        (Elt.smul (value_to_send.amount : ℤ) (value_generator value_to_send.asset_id))
    value_commitments := b.value_commitments.sub body.value_commitment
    outputs := b.outputs ++ [{ body := body
                               encrypted_memo := encrypted_memo
                               ovk_wrapped_key := ovk_wrapped_key }] }

/-- `Builder::set_fee`: the fee is an implicit output in the fee asset with
blinding fixed to zero. -/
def Builder.set_fee (b : Builder) (fee : ℕ) : Builder :=
  let fee_value : Value := { amount := fee, asset_id := upenumbraId }
  let fee_v_blinding : ℤ := 0
  let value_commitment := fee_value.commit fee_v_blinding
  { b with
    synthetic_blinding_factor := b.synthetic_blinding_factor - fee_v_blinding
    value_balance := b.value_balance.sub (Elt.smul (fee : ℤ) (value_generator upenumbraId))
    value_commitments := b.value_commitments.sub value_commitment
    fee := some fee }

/-- `Builder::set_expiry_height`. -/
def Builder.set_expiry_height (b : Builder) (expiry_height : ℕ) : Builder :=
  { b with expiry_height := some expiry_height }

/-- `Builder::set_chain_id`. -/
def Builder.set_chain_id (b : Builder) (chain_id : String) : Builder :=
  { b with chain_id := some chain_id }

/-- Compression of a group element to its encoding (`Element::compress`);
compression is injective on the group, so it is modelled by the canonical
representation itself. -/
def compress (a : Elt) : List ℤ := a.1

/-- The check performed by the `assert_eq` in `Builder::compute_binding_sig`:
the verification key derived from `synthetic_blinding_factor` (that is,
`synthetic_blinding_factor * H`, compressed) must equal the compressed sum of
value commitments. -/
def Builder.bindingVerificationOk (b : Builder) : Bool :=
  decide (compress (Elt.smul b.synthetic_blinding_factor Hgen) = compress b.value_commitments)

/-- Builder errors (`transaction::Error`, variants as used by `finalize`). -/
inductive BuildError
  | NoChainID
  | FeeNotSet
  | NonZeroValueBalance
deriving DecidableEq

/-- A transaction action (`Action`): a spend with its auth signature, or an
output. -/
inductive Action
  | spend (body : SpendBody) (auth_sig : Sig)
  | output (o : Output)
deriving DecidableEq

/-- The transaction body (`TransactionBody`). -/
structure TransactionBody where
  actions : List Action
  merkle_root : ℕ
  expiry_height : ℕ
  chain_id : String
  fee : ℕ
deriving DecidableEq

/-- A complete transaction (`Transaction`). -/
structure Transaction where
  transaction_body : TransactionBody
  binding_sig : Sig
deriving DecidableEq

/-- The sighash digest of a transaction body; the digest itself is a
cryptographic parameter whose value none of the statements below depend on. -/
def sighash (_tb : TransactionBody) : ℕ := 0

/-- The signing loop of `Builder::finalize`: for each index `i` below the
number of spends, the action at position `i` must be a `Spend`, whose blank
`auth_sig` is replaced with a signature under the `i`-th randomized key;
any other shape hits the `unreachable!("spends come first in actions list")`
branch (or an out-of-bounds index), modelled by `none`. -/
def signActions (sh : ℕ) : List (ℤ × SpendBody) → List Action → Option (List Action)
  | [], acts => some acts
  | (rsk, _) :: rest, Action.spend body _ :: acts =>
    match signActions sh rest acts with
    | some acc => some (Action.spend body (sign rsk sh) :: acc)
    | none => none
  | _ :: _, _ => none

/-- The possible outcomes of `Builder::finalize`: an `Err` return, one of the
two aborts (the `unreachable!` in the signing loop, the `assert_eq` in
`compute_binding_sig`), or a completed transaction. -/
inductive FinalizeResult
  | err (e : BuildError)
  | panicUnreachable
  | panicAssert
  | ok (t : Transaction)
deriving DecidableEq

/-- Whether a finalize outcome is a completed transaction. -/
def FinalizeResult.isOk : FinalizeResult → Bool
  | .ok _ => true
  | _ => false

/-- `Builder::finalize`.  The two `shuffle` calls draw from the RNG; they are
modelled by explicit reordering functions applied to the spend and output
lists (the theorems about them assume the reorderings are permutations). -/
def Builder.finalize (b : Builder)
    (shuffleSpends : List (ℤ × SpendBody) → List (ℤ × SpendBody))
    (shuffleOutputs : List Output → List Output) : FinalizeResult :=
  match b.chain_id with
  | none => .err .NoChainID
  | some chain_id =>
    match b.fee with
    | none => .err .FeeNotSet
    | some fee =>
      if b.value_balance ≠ Elt.zero then .err .NonZeroValueBalance
      else
        let spends := shuffleSpends b.spends
        let outputs := shuffleOutputs b.outputs
        let actions :=
          spends.map (fun sb => Action.spend sb.2 blankSig) ++ outputs.map Action.output
        let tb : TransactionBody :=
          { actions := actions
            merkle_root := b.merkle_root
            expiry_height := b.expiry_height.getD 0
            chain_id := chain_id
            fee := fee }
        let sh := sighash tb
        match signActions sh spends tb.actions with
        | none => .panicUnreachable
        | some signedActions =>
          if b.bindingVerificationOk then
            .ok { transaction_body := { tb with actions := signedActions }
                  binding_sig := sign b.synthetic_blinding_factor sh }
          else .panicAssert

/-- Builders reachable through the public builder operations. -/
inductive Reachable : Builder → Prop
  | init (merkle_root : ℕ) : Reachable (initBuilder merkle_root)
  | add_spend {b : Builder} (vb ρ sk : ℤ) (v : Value) (d : ℕ) :
      Reachable b → Reachable (b.add_spend vb ρ sk v d)
  | add_output {b : Builder} (vb : ℤ) (v : Value) (d m k : ℕ) :
      Reachable b → Reachable (b.add_output vb v d m k)
  | set_fee {b : Builder} (f : ℕ) : Reachable b → Reachable (b.set_fee f)
  | set_expiry_height {b : Builder} (h : ℕ) : Reachable b → Reachable (b.set_expiry_height h)
  | set_chain_id {b : Builder} (c : String) : Reachable b → Reachable (b.set_chain_id c)

/-! ABCI application, from `pd/src/app.rs` and `pd/src/pending_block.rs`. -/

/-- A nullifier (typed wrapper over a field element, abstracted). -/
abbrev Nullifier := ℕ

/-- A Merkle anchor.  The bridge tree is modelled by its leaf sequence and the
root digest (`root2`) by the sequence itself: the digest is a cryptographic
parameter and is injective on trees. -/
abbrev Root := List ℕ

/-- `NUM_RECENT_ANCHORS` in `app.rs`. -/
def NUM_RECENT_ANCHORS : ℕ := 64

/-- The root of the note commitment tree (`TreeExt::root2`), modelled
injectively by the leaf sequence. -/
def root2 (tree : List ℕ) : Root := tree

/-- Insertion into a `BTreeSet`, modelled on lists up to membership. -/
def insertN (n : Nullifier) (s : List Nullifier) : List Nullifier :=
  if n ∈ s then s else n :: s

/-- Removal from a `BTreeSet`, modelled on lists up to membership. -/
def removeN (s : List Nullifier) (n : Nullifier) : List Nullifier :=
  s.filter (fun x => x ≠ n)

/-- Modelled from the spec: the result of decoding plus stateless and stateful
verification (`verify.rs` is not under `src/`).  Per §4.4, a
`PendingTransaction` exposes `new_notes` (commitment and payload) and
`spent_nullifiers`; `wellFormed` records whether decoding and stateless
verification succeed, and `anchor` is the declared Merkle anchor checked by
stateful verification. -/
structure PendingTransaction where
  wellFormed : Bool
  new_notes : List (ℕ × ℕ)
  spent_nullifiers : List Nullifier
  anchor : Root
deriving DecidableEq

/-- Modelled from the spec: stateful verification (§4.4) checks that the
transaction's declared anchor is in the recent-anchors window (`verify.rs` is
not under `src/`). -/
def verifyStateful (tx : PendingTransaction) (recent_anchors : List Root) : Bool :=
  decide (tx.anchor ∈ recent_anchors)

/-- Pending state changes for the block under construction (`PendingBlock`). -/
structure PendingBlock where
  height : Option ℤ
  note_commitment_tree : List ℕ
  /-- Note commitments with their positions and payloads. -/
  notes : List (ℕ × ℕ × ℕ)
  /-- Nullifiers that were spent in this block. -/
  spent_nullifiers : List Nullifier
  /-- New asset types found in this block. -/
  new_assets : List (ℕ × String)
  epoch : Option ℕ
  epoch_duration : ℕ
deriving DecidableEq

/-- `PendingBlock::new`. -/
def PendingBlock.new (note_commitment_tree : List ℕ) (epoch_duration : ℕ) : PendingBlock :=
  { height := none
    note_commitment_tree := note_commitment_tree
    notes := []
    spent_nullifiers := []
    new_assets := []
    epoch := none
    epoch_duration := epoch_duration }

/-- `PendingBlock::add_transaction`: append each new note commitment to the
tree, record its position and payload, and fold each spent nullifier into the
spent set. -/
def PendingBlock.add_transaction (pb : PendingBlock) (tx : PendingTransaction) : PendingBlock :=
  let pb :=
    tx.new_notes.foldl
      (fun acc p =>
        let tree := acc.note_commitment_tree ++ [p.1]
        { acc with
          note_commitment_tree := tree
          notes := acc.notes ++ [(p.1, tree.length - 1, p.2)] })
      pb
  { pb with
    spent_nullifiers := tx.spent_nullifiers.foldl (fun s n => insertN n s) pb.spent_nullifiers }

/-- The application state owned by `App`, together with the
committed-nullifier store it reads through `State::nullifier` (the store
itself is external; membership is what the handlers consult). -/
structure AppState where
  /-- Modelled from the spec: the durable committed-nullifier store of §3,
  queried by `state.nullifier(..)` and extended by `state.commit_block`
  (the state store implementation is not under `src/`). -/
  committed_nullifiers : List Nullifier
  /-- Nullifiers of transactions admitted to the mempool but not committed. -/
  mempool_nullifiers : List Nullifier
  /-- Queued state changes for the duration of a block. -/
  pending_block : Option PendingBlock
  /-- The note commitment tree, written back on every commit. -/
  note_commitment_tree : List ℕ
  /-- Recent anchors of the note commitment tree, newest first. -/
  recent_anchors : List Root
  /-- Epoch duration in blocks. -/
  epoch_duration : ℕ
deriving DecidableEq

/-- Errors surfaced as non-zero `CheckTx`/`DeliverTx` response codes. -/
inductive TxError
  | decodeOrStateless
  | mempoolDuplicate (n : Nullifier)
  | committedDuplicate (n : Nullifier)
  | pendingBlockDuplicate (n : Nullifier)
  | badAnchor
deriving DecidableEq

/-- `CheckTxKind`. -/
inductive CheckTxKind
  | new
  | recheck
deriving DecidableEq

/-- The kind-`New` mempool loop of `App::check_tx`: for each spent nullifier
in order, reject if it is already in the mempool set, otherwise insert it.
Returns the mempool set as mutated so far together with the first duplicate
found, mirroring that an early `Err` return does not undo prior inserts. -/
def mempoolAdmit : List Nullifier → List Nullifier → List Nullifier × Option Nullifier
  | [], m => (m, none)
  | n :: ns, m => if n ∈ m then (m, some n) else mempoolAdmit ns (insertN n m)

/-- `App::check_tx`: decode and stateless verification, then (for kind `New`)
the mempool-nullifier loop, then the committed-store check, then stateful
verification.  Returns the response together with the application state —
`check_tx` mutates only the mempool-nullifier set, and an error response does
not undo the inserts already performed. -/
def check_tx (kind : CheckTxKind) (s : AppState) (tx : PendingTransaction) :
    Except TxError Unit × AppState :=
  if tx.wellFormed = false then (.error .decodeOrStateless, s)
  else
    let step := if kind = .new then mempoolAdmit tx.spent_nullifiers s.mempool_nullifiers
                else (s.mempool_nullifiers, none)
    let s' := { s with mempool_nullifiers := step.1 }
    match step.2 with
    | some n => (.error (.mempoolDuplicate n), s')
    | none =>
      match tx.spent_nullifiers.find? (fun n => decide (n ∈ s.committed_nullifiers)) with
      | some n => (.error (.committedDuplicate n), s')
      | none =>
        if verifyStateful tx s.recent_anchors then (.ok (), s')
        else (.error .badAnchor, s')

/-- The per-nullifier loop of `App::deliver_tx`: for each spent nullifier in
order, reject if it was spent in a previous block (committed store) or
already spent in this block (pending block's spent set). -/
def deliverChecks (committed pb_spent : List Nullifier) : List Nullifier → Option TxError
  | [] => none
  | n :: ns =>
    if n ∈ committed then some (.committedDuplicate n)
    else if n ∈ pb_spent then some (.pendingBlockDuplicate n)
    else deliverChecks committed pb_spent ns

/-- `App::deliver_tx`.  `none` models the abort when no pending block is
installed (`pending_block must be Some in DeliverTx`); otherwise the result is
the response, with the state folded into the pending block only on success —
every error return in the source precedes any mutation. -/
def deliver_tx (s : AppState) (tx : PendingTransaction) :
    Option (Except TxError AppState) :=
  match s.pending_block with
  | none => none
  | some pb =>
    some <|
      if tx.wellFormed = false then .error .decodeOrStateless
      else
        match deliverChecks s.committed_nullifiers pb.spent_nullifiers tx.spent_nullifiers with
        | some e => .error e
        | none =>
          if verifyStateful tx s.recent_anchors then
            .ok { s with pending_block := some (pb.add_transaction tx) }
          else .error .badAnchor

/-- Modelled from the spec: `state.commit_block` persists the pending block —
in particular its spent nullifiers enter the durable committed-nullifier
store (§4.5 Commit, §4.6; the state store implementation is not under
`src/`). -/
def commitBlockStore (committed : List Nullifier) (pb : PendingBlock) : List Nullifier :=
  pb.spent_nullifiers ++ committed

/-- The state transition of `App::commit`, given the pending block taken out
of the application: evict the block's spent nullifiers from the mempool set,
replace the note commitment tree, push the new anchor onto the front of the
recent-anchors deque and pop the back if it exceeds `NUM_RECENT_ANCHORS`,
and persist the block. -/
def commitPure (s : AppState) (pb : PendingBlock) : AppState :=
  let mempool := pb.spent_nullifiers.foldl removeN s.mempool_nullifiers
  let tree := pb.note_commitment_tree
  let anchor := root2 tree
  let ra := anchor :: s.recent_anchors
  let ra' := if ra.length > NUM_RECENT_ANCHORS then ra.dropLast else ra
  { s with
    pending_block := none
    mempool_nullifiers := mempool
    note_commitment_tree := tree
    recent_anchors := ra'
    committed_nullifiers := commitBlockStore s.committed_nullifiers pb }

/-- `App::commit`: takes the pending block out of the state (aborting if none
is installed, modelled by `none`) and applies the commit transition. -/
def commit (s : AppState) : Option AppState :=
  match s.pending_block with
  | none => none
  | some pb => some (commitPure s pb)

/-- A sequence of commits, each consuming a given pending block. -/
def runCommits (s : AppState) (pbs : List PendingBlock) : AppState :=
  pbs.foldl commitPure s

/-! Builder lemmas. -/

/-- The builder invariant: the accumulated sum of value commitments equals the
accumulated value balance plus the synthetic blinding factor times `H`.  Each
operation preserves it because every value commitment decomposes as
`amount · G_asset + r · H`. -/
theorem reachable_invariant {b : Builder} (h : Reachable b) :
    b.value_commitments = b.value_balance.add (Elt.smul b.synthetic_blinding_factor Hgen) := by
  induction h with
  | init root =>
    apply Elt.ext_c; intro i
    simp [initBuilder]
  | add_spend vb ρ sk v d hb ih =>
    apply Elt.ext_c; intro i
    simp [Builder.add_spend, Value.commit, ih, Hgen, value_generator]
    split_ifs <;> ring
  | add_output vb v d m k hb ih =>
    apply Elt.ext_c; intro i
    simp [Builder.add_output, Value.commit, ih, Hgen, value_generator]
    split_ifs <;> ring
  | set_fee f hb ih =>
    apply Elt.ext_c; intro i
    simp [Builder.set_fee, Value.commit, ih, Hgen, value_generator]
    split_ifs <;> ring
  | set_expiry_height hh hb ih => simpa [Builder.set_expiry_height] using ih
  | set_chain_id c hb ih => simpa [Builder.set_chain_id] using ih

/-- On a reachable builder with zero value balance the binding verification
check passes. -/
theorem bindingOk_of_reachable {b : Builder} (hb : Reachable b)
    (hz : b.value_balance = Elt.zero) : b.bindingVerificationOk = true := by
  have hc : b.value_commitments = Elt.smul b.synthetic_blinding_factor Hgen := by
    rw [reachable_invariant hb, hz]
    apply Elt.ext_c; intro i
    simp
  simp [Builder.bindingVerificationOk, compress, hc]

/-- The signing loop succeeds on an action list whose prefix consists exactly
of the spends with blank signatures, and replaces each blank signature. -/
theorem signActions_map (sh : ℕ) (ss : List (ℤ × SpendBody)) (rest : List Action) :
    signActions sh ss (ss.map (fun sb => Action.spend sb.2 blankSig) ++ rest)
      = some (ss.map (fun sb => Action.spend sb.2 (sign sb.1 sh)) ++ rest) := by
  induction ss with
  | nil => simp [signActions]
  | cons p ps ih =>
    cases p with
    | mk rsk body => simp [signActions, ih]

/-- Evaluation of `finalize` when the chain id is unset. -/
theorem finalize_err_noChainID (b : Builder)
    (shufS : List (ℤ × SpendBody) → List (ℤ × SpendBody))
    (shufO : List Output → List Output) (hch : b.chain_id = none) :
    b.finalize shufS shufO = .err .NoChainID := by
  simp [Builder.finalize, hch]

/-- Evaluation of `finalize` when the chain id is set but the fee is not. -/
theorem finalize_err_feeNotSet (b : Builder)
    (shufS : List (ℤ × SpendBody) → List (ℤ × SpendBody))
    (shufO : List Output → List Output) (cid : String)
    (hch : b.chain_id = some cid) (hf : b.fee = none) :
    b.finalize shufS shufO = .err .FeeNotSet := by
  simp [Builder.finalize, hch, hf]

/-- Evaluation of `finalize` when chain id and fee are set but the value
balance is not the group identity. -/
theorem finalize_err_balance (b : Builder)
    (shufS : List (ℤ × SpendBody) → List (ℤ × SpendBody))
    (shufO : List Output → List Output) (cid : String) (fv : ℕ)
    (hch : b.chain_id = some cid) (hf : b.fee = some fv)
    (hz : b.value_balance ≠ Elt.zero) :
    b.finalize shufS shufO = .err .NonZeroValueBalance := by
  simp only [Builder.finalize, hch, hf]
  rw [if_pos (by simp [hz])]

/-- Evaluation of `finalize` once all three precondition checks pass. -/
theorem finalize_ok_of (b : Builder)
    (shufS : List (ℤ × SpendBody) → List (ℤ × SpendBody))
    (shufO : List Output → List Output) (cid : String) (fv : ℕ)
    (hc : b.chain_id = some cid) (hf : b.fee = some fv)
    (hz : b.value_balance = Elt.zero) (hbv : b.bindingVerificationOk = true) :
    b.finalize shufS shufO =
      .ok { transaction_body :=
              { actions := (shufS b.spends).map (fun sb => Action.spend sb.2 (sign sb.1 0))
                  ++ (shufO b.outputs).map Action.output
                merkle_root := b.merkle_root
                expiry_height := b.expiry_height.getD 0
                chain_id := cid
                fee := fv }
            binding_sig := sign b.synthetic_blinding_factor 0 } := by
  have hsa := signActions_map 0 (shufS b.spends) ((shufO b.outputs).map Action.output)
  simp only [Builder.finalize, hc, hf, sighash]
  rw [if_neg (by simp [hz])]
  rw [hsa]
  simp [hbv]

/-- Evaluation of `finalize` when the three precondition checks pass but the
binding verification check fails: the `assert_eq` abort. -/
theorem finalize_panicAssert_of (b : Builder)
    (shufS : List (ℤ × SpendBody) → List (ℤ × SpendBody))
    (shufO : List Output → List Output) (cid : String) (fv : ℕ)
    (hc : b.chain_id = some cid) (hf : b.fee = some fv)
    (hz : b.value_balance = Elt.zero) (hbv : b.bindingVerificationOk = false) :
    b.finalize shufS shufO = .panicAssert := by
  have hsa := signActions_map 0 (shufS b.spends) ((shufO b.outputs).map Action.output)
  simp only [Builder.finalize, hc, hf, sighash]
  rw [if_neg (by simp [hz])]
  rw [hsa]
  simp [hbv]

/-- The signing loop's `unreachable!` branch is dead: by construction the
actions list starts with exactly the spend actions the loop walks over. -/
theorem finalize_ne_panicUnreachable (b : Builder)
    (shufS : List (ℤ × SpendBody) → List (ℤ × SpendBody))
    (shufO : List Output → List Output) :
    b.finalize shufS shufO ≠ .panicUnreachable := by
  cases hch : b.chain_id with
  | none => simp [finalize_err_noChainID b shufS shufO hch]
  | some cid =>
    cases hf : b.fee with
    | none => simp [finalize_err_feeNotSet b shufS shufO cid hch hf]
    | some fv =>
      by_cases hz : b.value_balance = Elt.zero
      · cases hbv : b.bindingVerificationOk with
        | false => simp [finalize_panicAssert_of b shufS shufO cid fv hch hf hz hbv]
        | true => simp [finalize_ok_of b shufS shufO cid fv hch hf hz hbv]
      · simp [finalize_err_balance b shufS shufO cid fv hch hf hz]

/-- Inversion: a completed transaction's action list is the shuffled spends
(signed) followed by the shuffled outputs. -/
theorem finalize_ok_actions {b : Builder}
    {shufS : List (ℤ × SpendBody) → List (ℤ × SpendBody)}
    {shufO : List Output → List Output} {t : Transaction}
    (h : b.finalize shufS shufO = .ok t) :
    t.transaction_body.actions =
      (shufS b.spends).map (fun sb => Action.spend sb.2 (sign sb.1 0))
        ++ (shufO b.outputs).map Action.output := by
  cases hch : b.chain_id with
  | none => rw [finalize_err_noChainID b shufS shufO hch] at h; simp at h
  | some cid =>
    cases hf : b.fee with
    | none => rw [finalize_err_feeNotSet b shufS shufO cid hch hf] at h; simp at h
    | some fv =>
      by_cases hz : b.value_balance = Elt.zero
      · cases hbv : b.bindingVerificationOk with
        | false =>
          rw [finalize_panicAssert_of b shufS shufO cid fv hch hf hz hbv] at h
          simp at h
        | true =>
          rw [finalize_ok_of b shufS shufO cid fv hch hf hz hbv] at h
          cases h
          rfl
      · rw [finalize_err_balance b shufS shufO cid fv hch hf hz] at h
        simp at h

/-- C1: for every builder reachable through the public operations, whenever
`finalize` reaches `compute_binding_sig` with `value_balance` equal to the
group identity, the accumulated `value_commitments` element equals (and hence
compresses to) `synthetic_blinding_factor · H`, so the `assert_eq` in
`compute_binding_sig` succeeds; this is the value-balance equation
`Σ spend.C − Σ output.C − fee·G_fee = synthetic_blinding · H` of every
successfully built transaction. -/
theorem binding_verification_of_reachable {b : Builder} (hb : Reachable b)
    (hzero : b.value_balance = Elt.zero) :
    b.value_commitments = Elt.smul b.synthetic_blinding_factor Hgen ∧
    b.bindingVerificationOk = true := by
  have hc : b.value_commitments = Elt.smul b.synthetic_blinding_factor Hgen := by
    rw [reachable_invariant hb, hzero]
    apply Elt.ext_c; intro i
    simp
  exact ⟨hc, by simp [Builder.bindingVerificationOk, compress, hc]⟩

/-- Witness for C1 at a concrete reachable builder. -/
theorem binding_verification_of_reachable_witness :
    (initBuilder 0).value_commitments
        = Elt.smul (initBuilder 0).synthetic_blinding_factor Hgen ∧
    (initBuilder 0).bindingVerificationOk = true :=
  binding_verification_of_reachable (Reachable.init 0) rfl

/-- C6: on a reachable builder, `finalize` fails with `NoChainID` when the
chain id is unset, else with `FeeNotSet` when the fee is unset, else with
`NonZeroValueBalance` when the value balance is not the group identity —
in that order — and these are the only error results: in every other case
`finalize` returns `Ok` with a completed transaction. -/
theorem finalize_error_cases (b : Builder)
    (shufS : List (ℤ × SpendBody) → List (ℤ × SpendBody))
    (shufO : List Output → List Output) (hb : Reachable b) :
    (b.finalize shufS shufO = .err .NoChainID ↔ b.chain_id = none) ∧
    (b.finalize shufS shufO = .err .FeeNotSet ↔ b.chain_id ≠ none ∧ b.fee = none) ∧
    (b.finalize shufS shufO = .err .NonZeroValueBalance ↔
      b.chain_id ≠ none ∧ b.fee ≠ none ∧ b.value_balance ≠ Elt.zero) ∧
    (b.chain_id ≠ none → b.fee ≠ none → b.value_balance = Elt.zero →
      ∃ t, b.finalize shufS shufO = .ok t) := by
  cases hch : b.chain_id with
  | none =>
    have hfin := finalize_err_noChainID b shufS shufO hch
    refine ⟨by simp [hfin, hch], by simp [hfin, hch], by simp [hfin, hch], by simp [hch]⟩
  | some cid =>
    cases hf : b.fee with
    | none =>
      have hfin := finalize_err_feeNotSet b shufS shufO cid hch hf
      refine ⟨by simp [hfin, hch], by simp [hfin, hch, hf], by simp [hfin, hch, hf],
        by simp [hf]⟩
    | some fv =>
      by_cases hz : b.value_balance = Elt.zero
      · have hfin := finalize_ok_of b shufS shufO cid fv hch hf hz
          (bindingOk_of_reachable hb hz)
        refine ⟨by simp [hfin, hch], by simp [hfin, hch, hf], by simp [hfin, hz],
          fun _ _ _ => ⟨_, hfin⟩⟩
      · have hfin := finalize_err_balance b shufS shufO cid fv hch hf hz
        refine ⟨by simp [hfin, hch], by simp [hfin, hch, hf],
          by simp [hfin, hch, hf, hz], by simp [hz]⟩

/-- A concrete reachable builder with a chain id but no fee. -/
def chainOnlyBuilder : Builder := (initBuilder 0).set_chain_id "penumbra"

/-- Witness for C6 at a concrete reachable builder. -/
theorem finalize_error_cases_witness :
    (chainOnlyBuilder.finalize id id = .err .NoChainID ↔ chainOnlyBuilder.chain_id = none) ∧
    (chainOnlyBuilder.finalize id id = .err .FeeNotSet ↔
      chainOnlyBuilder.chain_id ≠ none ∧ chainOnlyBuilder.fee = none) ∧
    (chainOnlyBuilder.finalize id id = .err .NonZeroValueBalance ↔
      chainOnlyBuilder.chain_id ≠ none ∧ chainOnlyBuilder.fee ≠ none ∧
      chainOnlyBuilder.value_balance ≠ Elt.zero) ∧
    (chainOnlyBuilder.chain_id ≠ none → chainOnlyBuilder.fee ≠ none →
      chainOnlyBuilder.value_balance = Elt.zero →
      ∃ t, chainOnlyBuilder.finalize id id = .ok t) :=
  finalize_error_cases chainOnlyBuilder id id
    (Reachable.set_chain_id "penumbra" (Reachable.init 0))

/-- C7: every successful `finalize` emits all spend actions first (one per
builder spend) followed by all output actions, so for every index below the
number of spends the action at that index is a `Spend`; consequently the
`unreachable!("spends come first in actions list")` branch of the signing
loop never executes. -/
theorem finalize_spends_first (b : Builder)
    (shufS : List (ℤ × SpendBody) → List (ℤ × SpendBody))
    (shufO : List Output → List Output)
    (hperm : (shufS b.spends).Perm b.spends) :
    b.finalize shufS shufO ≠ .panicUnreachable ∧
    ∀ t, b.finalize shufS shufO = .ok t →
      (∀ i, i < b.spends.length →
        ∃ body s, t.transaction_body.actions[i]? = some (.spend body s)) ∧
      (∀ j, b.spends.length ≤ j → j < t.transaction_body.actions.length →
        ∃ o, t.transaction_body.actions[j]? = some (.output o)) := by
  have hlen : (shufS b.spends).length = b.spends.length := hperm.length_eq
  refine ⟨finalize_ne_panicUnreachable b shufS shufO, fun t ht => ?_⟩
  have hact := finalize_ok_actions ht
  have hmaplen :
      ((shufS b.spends).map (fun sb => Action.spend sb.2 (sign sb.1 0))).length
        = b.spends.length := by
    rw [List.length_map, hlen]
  constructor
  · intro i hi
    rw [hact, List.getElem?_append_left (by rw [hmaplen]; exact hi), List.getElem?_map,
      List.getElem?_eq_getElem (by rw [hlen]; exact hi)]
    exact ⟨_, _, rfl⟩
  · intro j hj hjlen
    rw [hact] at hjlen ⊢
    rw [List.getElem?_append_right (by rw [hmaplen]; exact hj), List.getElem?_map]
    have hjo : j - ((shufS b.spends).map (fun sb => Action.spend sb.2 (sign sb.1 0))).length
        < (shufO b.outputs).length := by
      simp only [List.length_append, List.length_map] at hjlen ⊢
      omega
    rw [List.getElem?_eq_getElem hjo]
    exact ⟨_, rfl⟩

/-- A concrete reachable builder with one spend, a chain id and a zero fee,
whose value balance is zero. -/
def oneSpendBuilder : Builder :=
  (((initBuilder 0).add_spend 0 0 0 { amount := 0, asset_id := 0 } 0).set_chain_id
      "penumbra").set_fee 0

/-- Witness for C7 at a concrete builder with the identity shuffles. -/
theorem finalize_spends_first_witness :
    oneSpendBuilder.finalize id id ≠ .panicUnreachable ∧
    ∀ t, oneSpendBuilder.finalize id id = .ok t →
      (∀ i, i < oneSpendBuilder.spends.length →
        ∃ body s, t.transaction_body.actions[i]? = some (.spend body s)) ∧
      (∀ j, oneSpendBuilder.spends.length ≤ j → j < t.transaction_body.actions.length →
        ∃ o, t.transaction_body.actions[j]? = some (.output o)) :=
  finalize_spends_first oneSpendBuilder id id (List.Perm.refl _)

/-- A concrete reachable builder with chain id and fee set but no expiry
height. -/
def feeOnlyBuilder : Builder := ((initBuilder 0).set_chain_id "penumbra-test").set_fee 0

/-- C8 counterexample: a builder on which `set_expiry_height` was never called
(its `expiry_height` is still unset) for which `finalize` nevertheless
returns a completed transaction — `finalize` substitutes the default expiry
height 0 (`expiry_height.unwrap_or(0)`) instead of failing. -/
theorem finalize_without_expiry :
    feeOnlyBuilder.expiry_height = none ∧
    (feeOnlyBuilder.finalize id id).isOk = true := by
  exact ⟨rfl, by decide⟩

/-- C8 amended: `set_expiry_height` is not required before `finalize`: a
reachable builder with chain id and fee set and zero value balance finalizes
successfully even when the expiry height is unset, substituting the default
expiry height 0 in the completed transaction. -/
theorem finalize_defaults_expiry_height (b : Builder)
    (shufS : List (ℤ × SpendBody) → List (ℤ × SpendBody))
    (shufO : List Output → List Output) (cid : String) (fv : ℕ) (hb : Reachable b)
    (hc : b.chain_id = some cid) (hf : b.fee = some fv)
    (hz : b.value_balance = Elt.zero) (hexp : b.expiry_height = none) :
    ∃ t, b.finalize shufS shufO = .ok t ∧ t.transaction_body.expiry_height = 0 := by
  refine ⟨_, finalize_ok_of b shufS shufO cid fv hc hf hz
    (bindingOk_of_reachable hb hz), ?_⟩
  simp [hexp]

/-- Witness for the amended C8 at a concrete builder. -/
theorem finalize_defaults_expiry_height_witness :
    ∃ t, feeOnlyBuilder.finalize id id = .ok t ∧ t.transaction_body.expiry_height = 0 :=
  finalize_defaults_expiry_height feeOnlyBuilder id id "penumbra-test" 0
    (Reachable.set_fee 0 (Reachable.set_chain_id "penumbra-test" (Reachable.init 0)))
    rfl rfl (by decide) rfl

/-- The value commitment subtracted by `set_fee`: the fee value in the fee
asset committed with blinding zero. -/
def feeCommitment (f : ℕ) : Elt := Value.commit { amount := f, asset_id := upenumbraId } 0

/-- C9: `set_fee` is not idempotent: calling `set_fee f` twice leaves the
recorded fee at `f` but subtracts `f · G_upenumbra` from the value balance
and the fee value commitment from the commitment sum twice; hence for
`f > 0`, a builder whose spends and outputs balance against a single fee of
`f` fails `finalize` with `NonZeroValueBalance` after the second `set_fee f`
call. -/
theorem set_fee_twice_breaks_balance (b : Builder) (f : ℕ) (cid : String)
    (shufS : List (ℤ × SpendBody) → List (ℤ × SpendBody))
    (shufO : List Output → List Output)
    (hc : b.chain_id = some cid)
    (hbal : b.value_balance = Elt.smul (f : ℤ) (value_generator upenumbraId))
    (hf : 0 < f) :
    ((b.set_fee f).set_fee f).fee = some f ∧
    ((b.set_fee f).set_fee f).value_commitments
      = (b.value_commitments.sub (feeCommitment f)).sub (feeCommitment f) ∧
    (b.set_fee f).value_balance = Elt.zero ∧
    ((b.set_fee f).set_fee f).value_balance ≠ Elt.zero ∧
    ((b.set_fee f).set_fee f).finalize shufS shufO = .err .NonZeroValueBalance := by
  have hone : (b.set_fee f).value_balance = Elt.zero := by
    apply Elt.ext_c; intro i
    simp [Builder.set_fee, hbal]
  have hne : ((b.set_fee f).set_fee f).value_balance ≠ Elt.zero := by
    intro h
    have h1 := congrArg (fun e => Elt.c e (upenumbraId + 1)) h
    simp [Builder.set_fee, hbal, value_generator] at h1
    omega
  refine ⟨rfl, rfl, hone, hne, ?_⟩
  exact finalize_err_balance _ shufS shufO cid f hc rfl hne

/-- A concrete reachable builder whose spends balance against a single fee of
1 upenumbra. -/
def oneFeeSpendBuilder : Builder :=
  ((initBuilder 0).set_chain_id "penumbra-test").add_spend 0 0 0
    { amount := 1, asset_id := upenumbraId } 0

/-- Witness for C9 at a concrete builder with fee 1. -/
theorem set_fee_twice_breaks_balance_witness :
    ((oneFeeSpendBuilder.set_fee 1).set_fee 1).fee = some 1 ∧
    ((oneFeeSpendBuilder.set_fee 1).set_fee 1).value_commitments
      = (oneFeeSpendBuilder.value_commitments.sub (feeCommitment 1)).sub (feeCommitment 1) ∧
    (oneFeeSpendBuilder.set_fee 1).value_balance = Elt.zero ∧
    ((oneFeeSpendBuilder.set_fee 1).set_fee 1).value_balance ≠ Elt.zero ∧
    ((oneFeeSpendBuilder.set_fee 1).set_fee 1).finalize id id = .err .NonZeroValueBalance :=
  set_fee_twice_breaks_balance oneFeeSpendBuilder 1 "penumbra-test" id id rfl
    (by decide) (by decide)

/-! Application lemmas. -/

theorem mem_insertN (n x : Nullifier) (s : List Nullifier) :
    n ∈ insertN x s ↔ n = x ∨ n ∈ s := by
  unfold insertN
  by_cases hx : x ∈ s
  · rw [if_pos hx]
    constructor
    · exact fun h => Or.inr h
    · rintro (rfl | h) <;> [exact hx; exact h]
  · rw [if_neg hx]
    simp [List.mem_cons]

theorem mem_foldl_insertN (ns : List Nullifier) (s0 : List Nullifier) (n : Nullifier) :
    n ∈ ns.foldl (fun s m => insertN m s) s0 ↔ n ∈ s0 ∨ n ∈ ns := by
  induction ns generalizing s0 with
  | nil => simp
  | cons x xs ih =>
    rw [List.foldl_cons, ih, mem_insertN]
    simp [List.mem_cons]
    tauto

theorem mem_removeN (n x : Nullifier) (s : List Nullifier) :
    n ∈ removeN s x ↔ n ∈ s ∧ n ≠ x := by
  simp [removeN, List.mem_filter]

theorem mem_foldl_removeN (l : List Nullifier) (m : List Nullifier) (n : Nullifier) :
    n ∈ l.foldl removeN m ↔ n ∈ m ∧ n ∉ l := by
  induction l generalizing m with
  | nil => simp
  | cons x xs ih =>
    rw [List.foldl_cons, ih, mem_removeN]
    simp [List.mem_cons]
    tauto

/-- The note-appending fold of `add_transaction` does not touch the block's
spent-nullifier set. -/
theorem add_transaction_notes_fold_spent (notes : List (ℕ × ℕ)) (pb : PendingBlock) :
    (notes.foldl
        (fun acc p =>
          let tree := acc.note_commitment_tree ++ [p.1]
          { acc with
            note_commitment_tree := tree
            notes := acc.notes ++ [(p.1, tree.length - 1, p.2)] })
        pb).spent_nullifiers = pb.spent_nullifiers := by
  induction notes generalizing pb with
  | nil => rfl
  | cons p ps ih => rw [List.foldl_cons, ih]

theorem mem_add_transaction_spent (pb : PendingBlock) (tx : PendingTransaction)
    (n : Nullifier) :
    n ∈ (pb.add_transaction tx).spent_nullifiers ↔
      n ∈ pb.spent_nullifiers ∨ n ∈ tx.spent_nullifiers := by
  unfold PendingBlock.add_transaction
  rw [mem_foldl_insertN, add_transaction_notes_fold_spent]

/-- C10 supporting fact: the mempool set after `commit` contains precisely the
old members that are not among the pending block's spent nullifiers. -/
theorem commitPure_mempool_mem (s : AppState) (pb : PendingBlock) (n : Nullifier) :
    n ∈ (commitPure s pb).mempool_nullifiers ↔
      n ∈ s.mempool_nullifiers ∧ n ∉ pb.spent_nullifiers := by
  simp only [commitPure]
  exact mem_foldl_removeN pb.spent_nullifiers s.mempool_nullifiers n

/-- C10: `Commit` modifies the mempool-nullifier set only by removing exactly
the pending block's spent nullifiers: every mempool nullifier not spent by the
committed block survives, no nullifier is added, and every nullifier the block
spent is removed. -/
theorem commit_mempool_eviction_frame (s s' : AppState) (pb : PendingBlock) (n : Nullifier)
    (hpb : s.pending_block = some pb) (hc : commit s = some s') :
    (n ∈ s.mempool_nullifiers → n ∉ pb.spent_nullifiers → n ∈ s'.mempool_nullifiers) ∧
    (n ∈ s'.mempool_nullifiers → n ∈ s.mempool_nullifiers) ∧
    (n ∈ pb.spent_nullifiers → n ∉ s'.mempool_nullifiers) := by
  have hs' : s' = commitPure s pb := by
    unfold commit at hc
    rw [hpb] at hc
    exact (Option.some.inj hc).symm
  subst hs'
  refine ⟨fun h1 h2 => (commitPure_mempool_mem s pb n).2 ⟨h1, h2⟩,
    fun h => ((commitPure_mempool_mem s pb n).1 h).1,
    fun h hmem => ((commitPure_mempool_mem s pb n).1 hmem).2 h⟩

/-- An application state with nothing committed, an empty mempool and no
pending block. -/
def emptyAppState : AppState :=
  { committed_nullifiers := []
    mempool_nullifiers := []
    pending_block := none
    note_commitment_tree := []
    recent_anchors := []
    epoch_duration := 1 }

/-- An empty pending block over the empty tree. -/
def emptyPendingBlock : PendingBlock := PendingBlock.new [] 1

/-- A pending block spending nullifier 5. -/
def samplePendingBlock : PendingBlock :=
  { PendingBlock.new [] 1 with spent_nullifiers := [5] }

/-- A state with nullifiers 5 and 9 reserved in the mempool and
`samplePendingBlock` pending. -/
def sampleCommitState : AppState :=
  { emptyAppState with
    mempool_nullifiers := [5, 9]
    pending_block := some samplePendingBlock }

/-- Witness for C10 at a concrete state. -/
theorem commit_mempool_eviction_frame_witness :
    (9 ∈ sampleCommitState.mempool_nullifiers →
      9 ∉ samplePendingBlock.spent_nullifiers →
      9 ∈ (commitPure sampleCommitState samplePendingBlock).mempool_nullifiers) ∧
    (9 ∈ (commitPure sampleCommitState samplePendingBlock).mempool_nullifiers →
      9 ∈ sampleCommitState.mempool_nullifiers) ∧
    (9 ∈ samplePendingBlock.spent_nullifiers →
      9 ∉ (commitPure sampleCommitState samplePendingBlock).mempool_nullifiers) :=
  commit_mempool_eviction_frame sampleCommitState
    (commitPure sampleCommitState samplePendingBlock) samplePendingBlock 9 rfl rfl

theorem take_append_take (x y : List Root) (n : ℕ) :
    (x ++ y.take n).take n = (x ++ y).take n := by
  rw [List.take_append_eq_append_take, List.take_append_eq_append_take, List.take_take,
    min_eq_left (Nat.sub_le _ _)]

/-- One commit pushes the new anchor and caps the deque at
`NUM_RECENT_ANCHORS` entries. -/
theorem commitPure_anchors (s : AppState) (pb : PendingBlock)
    (h : s.recent_anchors.length ≤ NUM_RECENT_ANCHORS) :
    (commitPure s pb).recent_anchors
      = (root2 pb.note_commitment_tree :: s.recent_anchors).take NUM_RECENT_ANCHORS := by
  simp only [commitPure]
  by_cases hl : s.recent_anchors.length = NUM_RECENT_ANCHORS
  · rw [if_pos (by simp only [List.length_cons, hl, NUM_RECENT_ANCHORS]; omega)]
    rw [List.dropLast_eq_take]
    congr 1
  · rw [if_neg (by
      simp only [List.length_cons, gt_iff_lt, not_lt]
      omega)]
    exact (List.take_of_length_le (by simp only [List.length_cons]; omega)).symm

/-- After any sequence of commits starting below the cap, the deque holds the
newest `NUM_RECENT_ANCHORS` roots, newest first. -/
theorem runCommits_anchors (pbs : List PendingBlock) (s : AppState)
    (h : s.recent_anchors.length ≤ NUM_RECENT_ANCHORS) :
    (runCommits s pbs).recent_anchors =
      ((pbs.map (fun pb => root2 pb.note_commitment_tree)).reverse
        ++ s.recent_anchors).take NUM_RECENT_ANCHORS := by
  induction pbs generalizing s with
  | nil => simp [runCommits, List.take_of_length_le h]
  | cons pb pbs ih =>
    have hstep := commitPure_anchors s pb h
    have hlen : (commitPure s pb).recent_anchors.length ≤ NUM_RECENT_ANCHORS := by
      rw [hstep, List.length_take]
      exact min_le_left _ _
    have hrec := ih (commitPure s pb) hlen
    simp only [runCommits, List.foldl_cons] at hrec ⊢
    rw [hrec, hstep, take_append_take]
    simp [List.append_assoc]

/-- C5 counterexample: starting from an empty recent-anchors deque, a single
commit leaves 1 anchor in the deque, not min(1+1, 64) = 2 as the count
min(N+1, 64) would demand. -/
theorem recent_anchors_count_refutation :
    (runCommits emptyAppState [emptyPendingBlock]).recent_anchors.length ≠
      min (1 + 1) NUM_RECENT_ANCHORS := by
  decide

/-- C5 amended: after N commits starting from an empty recent-anchors deque,
the deque contains exactly min(N, 64) anchors ordered newest-first — each
commit pushes the new note-commitment-tree root onto the front and pops the
back entry whenever the length exceeds 64, so the deque never holds more than
64 anchors.  (The spec's count min(N+1, 64) holds only when N counts the
commits after the genesis commit.) -/
theorem recent_anchors_window (s : AppState) (pbs : List PendingBlock)
    (h : s.recent_anchors = []) :
    (runCommits s pbs).recent_anchors
      = ((pbs.map (fun pb => root2 pb.note_commitment_tree)).reverse).take
          NUM_RECENT_ANCHORS ∧
    (runCommits s pbs).recent_anchors.length = min pbs.length NUM_RECENT_ANCHORS := by
  have hmain := runCommits_anchors pbs s (by simp [h])
  rw [h, List.append_nil] at hmain
  refine ⟨hmain, ?_⟩
  rw [hmain, List.length_take, List.length_reverse, List.length_map, min_comm]

theorem mempoolAdmit_mono : ∀ (ns m : List Nullifier) (x : Nullifier),
    x ∈ m → x ∈ (mempoolAdmit ns m).1
  | [], _, _, hx => hx
  | n :: ns, m, x, hx => by
    unfold mempoolAdmit
    by_cases hn : n ∈ m
    · rw [if_pos hn]; exact hx
    · rw [if_neg hn]
      exact mempoolAdmit_mono ns (insertN n m) x ((mem_insertN x n m).2 (Or.inr hx))

theorem mempoolAdmit_none_mem : ∀ (ns m : List Nullifier),
    (mempoolAdmit ns m).2 = none → ∀ x, x ∈ ns → x ∈ (mempoolAdmit ns m).1
  | [], _, _, x, hx => absurd hx (by simp)
  | n :: ns, m, hnone, x, hx => by
    unfold mempoolAdmit at hnone ⊢
    by_cases hn : n ∈ m
    · rw [if_pos hn] at hnone; cases hnone
    · rw [if_neg hn] at hnone ⊢
      rcases List.mem_cons.1 hx with rfl | h2
      · exact mempoolAdmit_mono ns (insertN x m) x ((mem_insertN x x m).2 (Or.inl rfl))
      · exact mempoolAdmit_none_mem ns (insertN n m) hnone x h2

theorem mempoolAdmit_dup_of_mem : ∀ (ns m : List Nullifier) (n : Nullifier),
    n ∈ m → n ∈ ns → ∃ d, (mempoolAdmit ns m).2 = some d
  | [], _, _, _, hn => absurd hn (by simp)
  | x :: xs, m, n, hm, hn => by
    unfold mempoolAdmit
    by_cases hx : x ∈ m
    · rw [if_pos hx]; exact ⟨x, rfl⟩
    · rw [if_neg hx]
      rcases List.mem_cons.1 hn with rfl | h2
      · exact absurd hm hx
      · exact mempoolAdmit_dup_of_mem xs (insertN x m) n
          ((mem_insertN n x m).2 (Or.inr hm)) h2

theorem check_tx_notWf (kind : CheckTxKind) (s : AppState) (tx : PendingTransaction)
    (hwf : tx.wellFormed = false) :
    check_tx kind s tx = (.error .decodeOrStateless, s) := by
  simp [check_tx, hwf]

theorem check_tx_new_dup (s : AppState) (tx : PendingTransaction)
    (m' : List Nullifier) (d : Nullifier) (hwf : tx.wellFormed = true)
    (hA : mempoolAdmit tx.spent_nullifiers s.mempool_nullifiers = (m', some d)) :
    check_tx .new s tx =
      (.error (.mempoolDuplicate d), { s with mempool_nullifiers := m' }) := by
  simp [check_tx, hwf, hA]

theorem check_tx_new_committed (s : AppState) (tx : PendingTransaction)
    (m' : List Nullifier) (c : Nullifier) (hwf : tx.wellFormed = true)
    (hA : mempoolAdmit tx.spent_nullifiers s.mempool_nullifiers = (m', none))
    (hF : tx.spent_nullifiers.find? (fun x => decide (x ∈ s.committed_nullifiers))
      = some c) :
    check_tx .new s tx =
      (.error (.committedDuplicate c), { s with mempool_nullifiers := m' }) := by
  simp [check_tx, hwf, hA, hF]

theorem check_tx_new_pass (s : AppState) (tx : PendingTransaction)
    (m' : List Nullifier) (hwf : tx.wellFormed = true)
    (hA : mempoolAdmit tx.spent_nullifiers s.mempool_nullifiers = (m', none))
    (hF : tx.spent_nullifiers.find? (fun x => decide (x ∈ s.committed_nullifiers))
      = none) :
    check_tx .new s tx =
      (if verifyStateful tx s.recent_anchors then .ok () else .error .badAnchor,
        { s with mempool_nullifiers := m' }) := by
  simp only [check_tx, hwf, Bool.true_eq_false, if_false, reduceIte, hA, hF]
  split <;> rfl

theorem check_tx_recheck_committed (s : AppState) (tx : PendingTransaction)
    (c : Nullifier) (hwf : tx.wellFormed = true)
    (hF : tx.spent_nullifiers.find? (fun x => decide (x ∈ s.committed_nullifiers))
      = some c) :
    check_tx .recheck s tx = (.error (.committedDuplicate c), s) := by
  simp [check_tx, hwf, hF]

theorem check_tx_recheck_pass (s : AppState) (tx : PendingTransaction)
    (hwf : tx.wellFormed = true)
    (hF : tx.spent_nullifiers.find? (fun x => decide (x ∈ s.committed_nullifiers))
      = none) :
    check_tx .recheck s tx =
      (if verifyStateful tx s.recent_anchors then .ok () else .error .badAnchor, s) := by
  have hkind : (if CheckTxKind.recheck = CheckTxKind.new
      then mempoolAdmit tx.spent_nullifiers s.mempool_nullifiers
      else (s.mempool_nullifiers, none)) = (s.mempool_nullifiers, none) := by
    rw [if_neg (by decide)]
  simp only [check_tx, hwf, Bool.true_eq_false, if_false, hkind, hF]
  split <;> rfl

theorem check_tx_recheck_snd (s : AppState) (tx : PendingTransaction) :
    (check_tx .recheck s tx).2 = s := by
  cases hwf : tx.wellFormed with
  | false => rw [check_tx_notWf _ _ _ hwf]
  | true =>
    rcases hF : tx.spent_nullifiers.find?
        (fun x => decide (x ∈ s.committed_nullifiers)) with _ | c
    · rw [check_tx_recheck_pass s tx hwf hF]
    · rw [check_tx_recheck_committed s tx c hwf hF]

theorem check_tx_snd_eq (kind : CheckTxKind) (s : AppState) (tx : PendingTransaction) :
    ∃ m, (check_tx kind s tx).2 = { s with mempool_nullifiers := m } := by
  cases hwf : tx.wellFormed with
  | false =>
    refine ⟨s.mempool_nullifiers, ?_⟩
    rw [check_tx_notWf kind s tx hwf]
  | true =>
    cases kind with
    | recheck =>
      refine ⟨s.mempool_nullifiers, ?_⟩
      rw [check_tx_recheck_snd s tx]
    | new =>
      rcases hA : mempoolAdmit tx.spent_nullifiers s.mempool_nullifiers with ⟨m', dup⟩
      cases dup with
      | some d => exact ⟨m', by rw [check_tx_new_dup s tx m' d hwf hA]⟩
      | none =>
        rcases hF : tx.spent_nullifiers.find?
            (fun x => decide (x ∈ s.committed_nullifiers)) with _ | c
        · exact ⟨m', by rw [check_tx_new_pass s tx m' hwf hA hF]⟩
        · exact ⟨m', by rw [check_tx_new_committed s tx m' c hwf hA hF]⟩

theorem check_tx_new_mempool_reject (s : AppState) (tx : PendingTransaction)
    (n : Nullifier) (hmem : n ∈ s.mempool_nullifiers) (htx : n ∈ tx.spent_nullifiers) :
    ∃ e, (check_tx .new s tx).1 = .error e := by
  cases hwf : tx.wellFormed with
  | false => exact ⟨.decodeOrStateless, by rw [check_tx_notWf _ _ _ hwf]⟩
  | true =>
    rcases hA : mempoolAdmit tx.spent_nullifiers s.mempool_nullifiers with ⟨m', dup⟩
    obtain ⟨d, hd⟩ :=
      mempoolAdmit_dup_of_mem tx.spent_nullifiers s.mempool_nullifiers n hmem htx
    rw [hA] at hd
    subst hd
    exact ⟨.mempoolDuplicate d, by rw [check_tx_new_dup s tx m' d hwf hA]⟩

theorem check_tx_committed_reject (kind : CheckTxKind) (s : AppState)
    (tx : PendingTransaction) (n : Nullifier) (hc : n ∈ s.committed_nullifiers)
    (htx : n ∈ tx.spent_nullifiers) :
    ∃ e, (check_tx kind s tx).1 = .error e := by
  cases hwf : tx.wellFormed with
  | false => exact ⟨.decodeOrStateless, by rw [check_tx_notWf _ _ _ hwf]⟩
  | true =>
    have hfind : tx.spent_nullifiers.find?
        (fun x => decide (x ∈ s.committed_nullifiers)) ≠ none := by
      intro hF
      have := List.find?_eq_none.1 hF n htx
      simp [hc] at this
    cases kind with
    | recheck =>
      rcases hF : tx.spent_nullifiers.find?
          (fun x => decide (x ∈ s.committed_nullifiers)) with _ | c
      · exact absurd hF hfind
      · exact ⟨.committedDuplicate c, by rw [check_tx_recheck_committed s tx c hwf hF]⟩
    | new =>
      rcases hA : mempoolAdmit tx.spent_nullifiers s.mempool_nullifiers with ⟨m', dup⟩
      cases dup with
      | some d => exact ⟨.mempoolDuplicate d, by rw [check_tx_new_dup s tx m' d hwf hA]⟩
      | none =>
        rcases hF : tx.spent_nullifiers.find?
            (fun x => decide (x ∈ s.committed_nullifiers)) with _ | c
        · exact absurd hF hfind
        · exact ⟨.committedDuplicate c,
            by rw [check_tx_new_committed s tx m' c hwf hA hF]⟩

theorem check_tx_new_ok_inv (s : AppState) (tx : PendingTransaction)
    (h : (check_tx .new s tx).1 = .ok ()) :
    tx.wellFormed = true ∧
    (mempoolAdmit tx.spent_nullifiers s.mempool_nullifiers).2 = none ∧
    (check_tx .new s tx).2.mempool_nullifiers
      = (mempoolAdmit tx.spent_nullifiers s.mempool_nullifiers).1 := by
  cases hwf : tx.wellFormed with
  | false => rw [check_tx_notWf _ _ _ hwf] at h; simp at h
  | true =>
    cases hdup : (mempoolAdmit tx.spent_nullifiers s.mempool_nullifiers).2 with
    | some d =>
      have hA : mempoolAdmit tx.spent_nullifiers s.mempool_nullifiers
          = ((mempoolAdmit tx.spent_nullifiers s.mempool_nullifiers).1, some d) := by
        rw [← hdup]
      rw [check_tx_new_dup s tx _ d hwf hA] at h
      simp at h
    | none =>
      have hA : mempoolAdmit tx.spent_nullifiers s.mempool_nullifiers
          = ((mempoolAdmit tx.spent_nullifiers s.mempool_nullifiers).1, none) := by
        rw [← hdup]
      refine ⟨rfl, rfl, ?_⟩
      rcases hF : tx.spent_nullifiers.find?
          (fun x => decide (x ∈ s.committed_nullifiers)) with _ | c
      · rw [check_tx_new_pass s tx _ hwf hA hF]
      · rw [check_tx_new_committed s tx _ c hwf hA hF]

theorem deliverChecks_none_iff : ∀ (committed pbs ns : List Nullifier),
    deliverChecks committed pbs ns = none ↔ ∀ n ∈ ns, n ∉ committed ∧ n ∉ pbs
  | c, p, [] => by simp [deliverChecks]
  | c, p, n :: ns => by
    unfold deliverChecks
    by_cases h1 : n ∈ c
    · rw [if_pos h1]
      simp [List.forall_mem_cons, h1]
    · rw [if_neg h1]
      by_cases h2 : n ∈ p
      · rw [if_pos h2]
        simp [List.forall_mem_cons, h1, h2]
      · rw [if_neg h2]
        rw [deliverChecks_none_iff c p ns]
        simp [List.forall_mem_cons, h1, h2]

theorem deliverChecks_some_of_mem (committed pbs ns : List Nullifier) (n : Nullifier)
    (hn : n ∈ ns) (h : n ∈ committed ∨ n ∈ pbs) :
    ∃ e, deliverChecks committed pbs ns = some e := by
  cases he : deliverChecks committed pbs ns with
  | some e => exact ⟨e, rfl⟩
  | none =>
    have := (deliverChecks_none_iff committed pbs ns).1 he n hn
    tauto

theorem deliver_tx_eval (s : AppState) (pb : PendingBlock) (tx : PendingTransaction)
    (hpb : s.pending_block = some pb) :
    deliver_tx s tx =
      some (if tx.wellFormed = false then .error .decodeOrStateless
        else
          match deliverChecks s.committed_nullifiers pb.spent_nullifiers
              tx.spent_nullifiers with
          | some e => .error e
          | none =>
            if verifyStateful tx s.recent_anchors then
              .ok { s with pending_block := some (pb.add_transaction tx) }
            else .error .badAnchor) := by
  simp [deliver_tx, hpb]

theorem deliver_tx_ok_inv (s s' : AppState) (pb : PendingBlock)
    (tx : PendingTransaction) (hpb : s.pending_block = some pb)
    (h : deliver_tx s tx = some (.ok s')) :
    tx.wellFormed = true ∧
    deliverChecks s.committed_nullifiers pb.spent_nullifiers tx.spent_nullifiers
      = none ∧
    verifyStateful tx s.recent_anchors = true ∧
    s' = { s with pending_block := some (pb.add_transaction tx) } := by
  rw [deliver_tx_eval s pb tx hpb] at h
  have h2 := Option.some.inj h
  cases hwf : tx.wellFormed with
  | false => rw [hwf] at h2; simp at h2
  | true =>
    rw [hwf] at h2
    simp only [Bool.true_eq_false, if_false] at h2
    cases hdc : deliverChecks s.committed_nullifiers pb.spent_nullifiers
        tx.spent_nullifiers with
    | some e => rw [hdc] at h2; simp at h2
    | none =>
      rw [hdc] at h2
      cases hst : verifyStateful tx s.recent_anchors with
      | false => rw [hst] at h2; simp at h2
      | true =>
        rw [hst] at h2
        simp only [if_true] at h2
        simp at h2
        exact ⟨rfl, rfl, rfl, h2.symm⟩

/-- C2: two delivered transactions cannot share a spent nullifier — whether
the first was committed in an earlier block (nullifier in the committed
store) or delivered earlier in the same block (nullifier in the pending
block's spent set), the second `DeliverTx` returns an error and is not
folded into the pending block; a transaction is folded in only if none of
its nullifiers is in either set. -/
theorem deliver_tx_nonreplay (s : AppState) (pb : PendingBlock)
    (tx tx2 : PendingTransaction) (n : Nullifier)
    (hpb : s.pending_block = some pb) :
    (n ∈ s.committed_nullifiers → n ∈ tx.spent_nullifiers →
      ∃ e, deliver_tx s tx = some (.error e)) ∧
    (n ∈ pb.spent_nullifiers → n ∈ tx.spent_nullifiers →
      ∃ e, deliver_tx s tx = some (.error e)) ∧
    (∀ s', deliver_tx s tx = some (.ok s') →
      (∀ m ∈ tx.spent_nullifiers, m ∉ s.committed_nullifiers ∧ m ∉ pb.spent_nullifiers) ∧
      s' = { s with pending_block := some (pb.add_transaction tx) }) ∧
    (∀ s', deliver_tx s tx = some (.ok s') → n ∈ tx.spent_nullifiers →
      n ∈ tx2.spent_nullifiers → ∃ e, deliver_tx s' tx2 = some (.error e)) := by
  have herr : ∀ (s0 : AppState) (pb0 : PendingBlock) (tx0 : PendingTransaction),
      s0.pending_block = some pb0 →
      (n ∈ s0.committed_nullifiers ∨ n ∈ pb0.spent_nullifiers) →
      n ∈ tx0.spent_nullifiers →
      ∃ e, deliver_tx s0 tx0 = some (.error e) := by
    intro s0 pb0 tx0 hpb0 hcp hmem
    rw [deliver_tx_eval s0 pb0 tx0 hpb0]
    cases hwf : tx0.wellFormed with
    | false => exact ⟨.decodeOrStateless, by simp [hwf]⟩
    | true =>
      obtain ⟨e, he⟩ := deliverChecks_some_of_mem s0.committed_nullifiers
        pb0.spent_nullifiers tx0.spent_nullifiers n hmem hcp
      exact ⟨e, by simp [hwf, he]⟩
  refine ⟨fun h1 h2 => herr s pb tx hpb (Or.inl h1) h2,
    fun h1 h2 => herr s pb tx hpb (Or.inr h1) h2, ?_, ?_⟩
  · intro s' hok
    obtain ⟨hwf, hdc, hst, hs'⟩ := deliver_tx_ok_inv s s' pb tx hpb hok
    exact ⟨fun m hm => (deliverChecks_none_iff _ _ _).1 hdc m hm, hs'⟩
  · intro s' hok hn1 hn2
    obtain ⟨hwf, hdc, hst, hs'⟩ := deliver_tx_ok_inv s s' pb tx hpb hok
    have hpb' : s'.pending_block = some (pb.add_transaction tx) := by rw [hs']
    have hnmem : n ∈ (pb.add_transaction tx).spent_nullifiers :=
      (mem_add_transaction_spent pb tx n).2 (Or.inr hn1)
    exact herr s' (pb.add_transaction tx) tx2 hpb' (Or.inr hnmem) hn2

/-- A transaction spending nullifier 7, well formed, citing the empty-tree
anchor. -/
def replayTx : PendingTransaction :=
  { wellFormed := true, new_notes := [], spent_nullifiers := [7], anchor := [] }

/-- A second transaction also spending nullifier 7. -/
def replayTx2 : PendingTransaction :=
  { wellFormed := true, new_notes := [(3, 4)], spent_nullifiers := [7], anchor := [] }

/-- A state with an installed empty pending block and the empty-tree anchor
recent. -/
def deliverState : AppState :=
  { emptyAppState with
    pending_block := some emptyPendingBlock
    recent_anchors := [[]] }

/-- Witness for C2 at a concrete state and transactions. -/
theorem deliver_tx_nonreplay_witness :
    (7 ∈ deliverState.committed_nullifiers → 7 ∈ replayTx.spent_nullifiers →
      ∃ e, deliver_tx deliverState replayTx = some (.error e)) ∧
    (7 ∈ emptyPendingBlock.spent_nullifiers → 7 ∈ replayTx.spent_nullifiers →
      ∃ e, deliver_tx deliverState replayTx = some (.error e)) ∧
    (∀ s', deliver_tx deliverState replayTx = some (.ok s') →
      (∀ m ∈ replayTx.spent_nullifiers,
        m ∉ deliverState.committed_nullifiers ∧ m ∉ emptyPendingBlock.spent_nullifiers) ∧
      s' = { deliverState with
        pending_block := some (emptyPendingBlock.add_transaction replayTx) }) ∧
    (∀ s', deliver_tx deliverState replayTx = some (.ok s') →
      7 ∈ replayTx.spent_nullifiers → 7 ∈ replayTx2.spent_nullifiers →
      ∃ e, deliver_tx s' replayTx2 = some (.error e)) :=
  deliver_tx_nonreplay deliverState emptyPendingBlock replayTx replayTx2 7 rfl

/-- A state with nullifier 7 already in the committed store and an empty
mempool set. -/
def committedOnlyState : AppState := { emptyAppState with committed_nullifiers := [7] }

/-- C3 counterexample: a `CheckTx` with kind `New` that is rejected (the
nullifier is already in the committed store) nevertheless leaves the
nullifier inserted in the mempool-nullifier set — the kind-`New` loop runs
and inserts before the committed-store check, and the error return does not
undo the insert. -/
theorem check_tx_failure_mutates_mempool :
    (∃ e, (check_tx .new committedOnlyState replayTx).1 = .error e) ∧
    (check_tx .new committedOnlyState replayTx).2.mempool_nullifiers ≠
      committedOnlyState.mempool_nullifiers := by
  exact ⟨⟨.committedDuplicate 7, by rfl⟩, by decide⟩

/-- C3 amended: a failing `CheckTx` or `DeliverTx` never mutates the pending
block, the note commitment tree, the recent-anchors deque or the committed
store, a `Recheck` never mutates anything, and a successful `DeliverTx`
mutates only the pending block; however a rejected kind-`New` `CheckTx` may
leave in the mempool-nullifier set the nullifiers it inserted before the
failing check (see the counterexample). -/
theorem tx_failure_state_effects (kind : CheckTxKind) (s : AppState)
    (tx : PendingTransaction) :
    ((check_tx kind s tx).2.pending_block = s.pending_block ∧
     (check_tx kind s tx).2.note_commitment_tree = s.note_commitment_tree ∧
     (check_tx kind s tx).2.recent_anchors = s.recent_anchors ∧
     (check_tx kind s tx).2.committed_nullifiers = s.committed_nullifiers) ∧
    (check_tx .recheck s tx).2 = s ∧
    (∀ pb s', s.pending_block = some pb → deliver_tx s tx = some (.ok s') →
      s'.mempool_nullifiers = s.mempool_nullifiers ∧
      s'.note_commitment_tree = s.note_commitment_tree ∧
      s'.recent_anchors = s.recent_anchors ∧
      s'.committed_nullifiers = s.committed_nullifiers) := by
  refine ⟨?_, check_tx_recheck_snd s tx, ?_⟩
  · obtain ⟨m, hm⟩ := check_tx_snd_eq kind s tx
    rw [hm]
    exact ⟨rfl, rfl, rfl, rfl⟩
  · intro pb s' hpb hok
    obtain ⟨hwf, hdc, hst, hs'⟩ := deliver_tx_ok_inv s s' pb tx hpb hok
    rw [hs']
    exact ⟨rfl, rfl, rfl, rfl⟩

/-- Witness for the amended C3 at a concrete state. -/
theorem tx_failure_state_effects_witness :
    ((check_tx .new committedOnlyState replayTx).2.pending_block
        = committedOnlyState.pending_block ∧
     (check_tx .new committedOnlyState replayTx).2.note_commitment_tree
        = committedOnlyState.note_commitment_tree ∧
     (check_tx .new committedOnlyState replayTx).2.recent_anchors
        = committedOnlyState.recent_anchors ∧
     (check_tx .new committedOnlyState replayTx).2.committed_nullifiers
        = committedOnlyState.committed_nullifiers) ∧
    (check_tx .recheck committedOnlyState replayTx).2 = committedOnlyState ∧
    (∀ pb s', committedOnlyState.pending_block = some pb →
      deliver_tx committedOnlyState replayTx = some (.ok s') →
      s'.mempool_nullifiers = committedOnlyState.mempool_nullifiers ∧
      s'.note_commitment_tree = committedOnlyState.note_commitment_tree ∧
      s'.recent_anchors = committedOnlyState.recent_anchors ∧
      s'.committed_nullifiers = committedOnlyState.committed_nullifiers) :=
  tx_failure_state_effects .new committedOnlyState replayTx

/-- C4: in `CheckTx` with kind `New`, a transaction sharing a spent nullifier
with the mempool set is rejected, a successful admission inserts all its
spent nullifiers into the mempool set, a transaction with a nullifier in the
committed store is rejected for any kind, and consequently two kind-`New`
admissions cannot both succeed while sharing a nullifier as long as the first
remains uncommitted. -/
theorem check_tx_mempool_nonreplay (s : AppState) (tx tx2 : PendingTransaction)
    (n : Nullifier) :
    (n ∈ s.mempool_nullifiers → n ∈ tx.spent_nullifiers →
      ∃ e, (check_tx .new s tx).1 = .error e) ∧
    ((check_tx .new s tx).1 = .ok () →
      ∀ m ∈ tx.spent_nullifiers, m ∈ (check_tx .new s tx).2.mempool_nullifiers) ∧
    (∀ kind, n ∈ s.committed_nullifiers → n ∈ tx.spent_nullifiers →
      ∃ e, (check_tx kind s tx).1 = .error e) ∧
    ((check_tx .new s tx).1 = .ok () → n ∈ tx.spent_nullifiers →
      n ∈ tx2.spent_nullifiers →
      ∃ e, (check_tx .new (check_tx .new s tx).2 tx2).1 = .error e) := by
  refine ⟨check_tx_new_mempool_reject s tx n, ?_, ?_, ?_⟩
  · intro hok m hm
    obtain ⟨hwf, hnone, hsnd⟩ := check_tx_new_ok_inv s tx hok
    rw [hsnd]
    exact mempoolAdmit_none_mem tx.spent_nullifiers s.mempool_nullifiers hnone m hm
  · intro kind hc htx
    exact check_tx_committed_reject kind s tx n hc htx
  · intro hok hn1 hn2
    obtain ⟨hwf, hnone, hsnd⟩ := check_tx_new_ok_inv s tx hok
    have hmem : n ∈ (check_tx .new s tx).2.mempool_nullifiers := by
      rw [hsnd]
      exact mempoolAdmit_none_mem tx.spent_nullifiers s.mempool_nullifiers hnone n hn1
    exact check_tx_new_mempool_reject (check_tx .new s tx).2 tx2 n hmem hn2

/-- A well-formed transaction spending nullifier 9 citing the empty-tree
anchor. -/
def mempoolTx : PendingTransaction :=
  { wellFormed := true, new_notes := [], spent_nullifiers := [9], anchor := [] }

/-- A second well-formed transaction also spending nullifier 9. -/
def mempoolTx2 : PendingTransaction :=
  { wellFormed := true, new_notes := [], spent_nullifiers := [9, 11], anchor := [] }

/-- A state with the empty-tree anchor recent and nothing reserved. -/
def mempoolState : AppState := { emptyAppState with recent_anchors := [[]] }

/-- Witness for C4 at a concrete state and transactions. -/
theorem check_tx_mempool_nonreplay_witness :
    (9 ∈ mempoolState.mempool_nullifiers → 9 ∈ mempoolTx.spent_nullifiers →
      ∃ e, (check_tx .new mempoolState mempoolTx).1 = .error e) ∧
    ((check_tx .new mempoolState mempoolTx).1 = .ok () →
      ∀ m ∈ mempoolTx.spent_nullifiers,
        m ∈ (check_tx .new mempoolState mempoolTx).2.mempool_nullifiers) ∧
    (∀ kind, 9 ∈ mempoolState.committed_nullifiers → 9 ∈ mempoolTx.spent_nullifiers →
      ∃ e, (check_tx kind mempoolState mempoolTx).1 = .error e) ∧
    ((check_tx .new mempoolState mempoolTx).1 = .ok () →
      9 ∈ mempoolTx.spent_nullifiers → 9 ∈ mempoolTx2.spent_nullifiers →
      ∃ e, (check_tx .new (check_tx .new mempoolState mempoolTx).2 mempoolTx2).1
        = .error e) :=
  check_tx_mempool_nonreplay mempoolState mempoolTx mempoolTx2 9

/-- Witness for the amended C5 at a concrete run. -/
theorem recent_anchors_window_witness :
    (runCommits emptyAppState [emptyPendingBlock, samplePendingBlock]).recent_anchors
      = (([emptyPendingBlock, samplePendingBlock].map
          (fun pb => root2 pb.note_commitment_tree)).reverse).take NUM_RECENT_ANCHORS ∧
    (runCommits emptyAppState [emptyPendingBlock, samplePendingBlock]).recent_anchors.length
      = min [emptyPendingBlock, samplePendingBlock].length NUM_RECENT_ANCHORS :=
  recent_anchors_window emptyAppState [emptyPendingBlock, samplePendingBlock] rfl

end Penumbra
